import Mathlib

/-!
Shallow embedding of the Minesweeper board core (`src/resources/board.rs`).

Conventions of the embedding:
* `i8` cell values are modelled as `Int`; the `u8 -> i8` / `usize -> i8` casts
  of the source are made explicit through `toI8` (reduction modulo 2^8,
  reinterpreted in two's complement).
* The `u32` inputs of `empty` are `Nat`s; the `try_into::<i32>().unwrap()`
  calls and the wrapping `u32` multiplication `width * height` are modelled
  faithfully (`Option` for the panic, `% 2^32` for the wrap).
* A Rust panic (failed `unwrap`, failed `assert!`, out-of-range slice fill)
  is modelled as `none`.
* The `Cell<i8>` shared buffer is modelled by threading the buffer
  (`List Int`) explicitly through the `TileView` operations: every view made
  from the same map reads and writes the same list.
* The thread-local RNG of `random` is abstracted as a `shuffle` function
  parameter; theorems assume only that it permutes its input, which is the
  guarantee `rng.shuffle` provides.
-/

/-- Logical state of one cell: a mine, or clear with a `u8` count of adjacent
mines (the payload is a `Nat`, standing for the `u8`). -/
inductive TileState where
  | Mine : TileState
  | Clear : Nat → TileState
deriving DecidableEq, Repr

/-- The `as i8` cast of the source: reduce modulo 2^8 and reinterpret the
result in two's complement. -/
def toI8 (n : Nat) : Int :=
  if n % 256 < 128 then (n % 256 : Int) else (n % 256 : Int) - 256

/-- `bound_check(coord, dim)` of the source: `coord.cmpge(IVec2::ZERO).all()
&& coord.cmplt(dim).all()`. -/
def bound_check (coord dim : Int × Int) : Bool :=
  (0 ≤ coord.1 && 0 ≤ coord.2) && (coord.1 < dim.1 && coord.2 < dim.2)

/-- `TileMap` of the source: mine count (`u32`), dimensions (`IVec2`, i.e. a
pair of `i32`), and the backing buffer of `i8` cell values. -/
structure TileMap where
  n_mines : Nat
  dim : Int × Int
  tiles : List Int
deriving DecidableEq, Repr

/-- `TileView` of the source, minus the `&[Cell<i8>]` borrow: the buffer is
passed explicitly to every operation, so all views of one map alias the one
list that is threaded through. -/
structure TileView where
  coord : Int × Int
  n_mines : Nat
  dim : Int × Int
deriving DecidableEq, Repr

/-- `TileMap::empty`. `width.try_into::<i32>().unwrap()` panics (`none`) for
inputs `≥ 2^31`; the buffer length is the wrapping `u32` product
`(width * height) as usize`, i.e. `width * height % 2^32`. -/
def TileMap.empty (width height : Nat) : Option TileMap :=
  if width < 2 ^ 31 && height < 2 ^ 31 then
    some { n_mines := 0
           dim := ((width : Int), (height : Int))
           tiles := List.replicate (width * height % 2 ^ 32) 0 }
  else none

/-- Linear index of a view's coordinate, `coord.y * width + coord.x` then
`as usize`; only evaluated on bounds-checked coordinates in the source. -/
def TileView.index (v : TileView) : Nat :=
  (v.coord.2 * v.dim.1 + v.coord.1).toNat

/-- Decoding of one stored `i8` cell value, the `match` of `TileView::state`:
a negative value is a mine, otherwise the value `as u8` is the clear count. -/
def cellState (n : Int) : TileState :=
  if n < 0 then TileState.Mine else TileState.Clear n.toNat

/-- `TileView::state`: decode the cell the view points at. -/
def TileView.state (v : TileView) (tiles : List Int) : TileState :=
  cellState (tiles.getD v.index 0)

/-- `TileView::set_state`: store `-1` for a mine, `n as i8` for `Clear(n)`.
Returns the updated shared buffer. -/
def TileView.set_state (v : TileView) (state : TileState) (tiles : List Int) :
    List Int :=
  match state with
  | TileState.Mine => tiles.set v.index (-1)
  | TileState.Clear n => tiles.set v.index (toI8 n)

/-- `TileView::is_mine`. -/
def TileView.is_mine (v : TileView) (tiles : List Int) : Bool :=
  v.state tiles == TileState.Mine

/-- `TileView::with_coordinate`; the `bound_check_assert` panic is `none`. -/
def TileView.with_coordinate (v : TileView) (coord : Int × Int) :
    Option TileView :=
  if bound_check coord v.dim then some { v with coord := coord } else none

/-- `TileView::try_with_coordinate`. -/
def TileView.try_with_coordinate (v : TileView) (coord : Int × Int) :
    Option TileView :=
  if bound_check coord v.dim then some { v with coord := coord } else none

/-- `TileView::step`. -/
def TileView.step (v : TileView) (delta : Int × Int) : Option TileView :=
  v.try_with_coordinate (delta.1 + v.coord.1, delta.2 + v.coord.2)

/-- The `NEIGHBORS` delta table of `TileView::neighbors`, in source order. -/
def neighborDeltas : List (Int × Int) :=
  [(-1, -1), (0, -1), (1, -1), (-1, 0), (1, 0), (-1, 1), (0, 1), (1, 1)]

/-- `TileView::neighbors`: apply each delta in order, keep the in-bounds
results. -/
def TileView.neighbors (v : TileView) : List TileView :=
  neighborDeltas.filterMap fun delta =>
    let coord := (v.coord.1 + delta.1, v.coord.2 + delta.2)
    if bound_check coord v.dim then some { v with coord := coord } else none

/-- `TileMap::get_tile`. -/
def TileMap.get_tile (m : TileMap) (coord : Int × Int) : Option TileView :=
  if bound_check coord m.dim then
    some { coord := coord, n_mines := m.n_mines, dim := m.dim }
  else none

/-- `TileMap::tile` is `get_tile(..).unwrap()`; the panic is `none`. -/
def TileMap.tile (m : TileMap) (coord : Int × Int) : Option TileView :=
  m.get_tile coord

/-- `TileMap::get_tiles`: each coordinate independently bounds-checked. -/
def TileMap.get_tiles (m : TileMap) (coords : List (Int × Int)) :
    List (Option TileView) :=
  coords.map fun coord =>
    if bound_check coord m.dim then
      some { coord := coord, n_mines := m.n_mines, dim := m.dim }
    else none

/-- `TileMap::coords`: `(0..height).cartesian_product(0..width)` mapped to
`(x, y)`, i.e. row-major order, `y` outer and `x` inner. -/
def TileMap.coords (m : TileMap) : List (Int × Int) :=
  (List.range m.dim.2.toNat).flatMap fun (y : Nat) =>
    (List.range m.dim.1.toNat).map fun (x : Nat) => ((x : Int), (y : Int))

/-- `TileMap::all_tiles`: `get_tiles(coords())` with the options unwrapped
(`reduceOption`; every produced coordinate is in bounds, so no `none` is
dropped). -/
def TileMap.all_tiles (m : TileMap) : List TileView :=
  (m.get_tiles m.coords).reduceOption

/-- The body of the derivation pass of `TileMap::random`: skip mines (the
`filter`), otherwise store the number of mine neighbors (`adj_mines as i8`).
The buffer is read at visit time, exactly like the lazy iterator chain. -/
def deriveStep (tiles : List Int) (v : TileView) : List Int :=
  if v.is_mine tiles then tiles
  else v.set_state (TileState.Clear (v.neighbors.filter
    (fun nb => nb.is_mine tiles)).length) tiles

/-- The whole derivation pass, visiting the given views in order. -/
def deriveFold (views : List TileView) (tiles : List Int) : List Int :=
  views.foldl deriveStep tiles

/-- `board.tiles[..n_mines].fill(-1)`: overwrite the first `n_mines` cells
with the mine sentinel. Only applied when `n_mines ≤ tiles.length` (the
slice operation panics otherwise). -/
def mineFill (tiles : List Int) (n_mines : Nat) : List Int :=
  List.replicate n_mines (-1) ++ tiles.drop n_mines

/-- `TileMap::random`. `board.tiles[..n_mines].fill(-1)` panics (`none`) when
`n_mines` exceeds the buffer length; otherwise the first `n_mines` cells
become `-1`, the RNG shuffles the buffer, and the derivation pass runs over
`all_tiles()`. `board.n_mines` is never reassigned, exactly as in the
source. -/
def TileMap.random (width height n_mines : Nat)
    (shuffle : List Int → List Int) : Option TileMap :=
  match TileMap.empty width height with
  | none => none
  | some board =>
    if n_mines ≤ board.tiles.length then
      let board := { board with tiles := shuffle (mineFill board.tiles n_mines) }
      some { board with tiles := deriveFold board.all_tiles board.tiles }
    else none

/-- Whether a `TileState` is a clear cell (`Clear(k)` for some `k`). -/
def TileState.isClear : TileState → Bool
  | TileState.Mine => false
  | TileState.Clear _ => true

/-! ### Basic facts about the cell encoding -/

theorem toI8_of_lt {n : Nat} (h : n < 128) : toI8 n = (n : Int) := by
  unfold toI8
  rw [Nat.mod_eq_of_lt (by omega), if_pos h]
  omega

theorem cellState_eq_mine_iff {t : Int} : cellState t = TileState.Mine ↔ t < 0 := by
  unfold cellState
  split <;> simp_all

theorem cellState_isClear_iff {t : Int} :
    (cellState t).isClear = true ↔ 0 ≤ t := by
  unfold cellState
  split <;> simp [TileState.isClear] <;> omega

theorem is_mine_eq (v : TileView) (tiles : List Int) :
    v.is_mine tiles = decide (tiles.getD v.index 0 < 0) := by
  unfold TileView.is_mine TileView.state cellState
  simp only [List.getD_eq_getElem?_getD]
  by_cases h : tiles[v.index]?.getD 0 < 0
  · simp [h]
  · simp [h]

/-! ### Bounds checking -/

theorem bound_check_iff {c dim : Int × Int} :
    bound_check c dim = true ↔
      0 ≤ c.1 ∧ 0 ≤ c.2 ∧ c.1 < dim.1 ∧ c.2 < dim.2 := by
  unfold bound_check
  simp only [Bool.and_eq_true, decide_eq_true_eq]
  tauto

/-! ### The linear index -/

theorem index_mk {x y : Int} {nm w h : Nat} (hx : 0 ≤ x) (hy : 0 ≤ y) :
    (TileView.mk (x, y) nm ((w : Int), (h : Int))).index = y.toNat * w + x.toNat := by
  unfold TileView.index
  simp only
  rw [← Int.toNat_of_nonneg hx, ← Int.toNat_of_nonneg hy, ← Nat.cast_mul,
    ← Nat.cast_add, Int.toNat_natCast]
  simp only [Int.toNat_natCast]

theorem rowmajor_lt {w h x y : Nat} (hx : x < w) (hy : y < h) :
    y * w + x < w * h := by
  calc y * w + x < y * w + w := by omega
    _ = (y + 1) * w := by ring
    _ ≤ h * w := Nat.mul_le_mul_right w hy
    _ = w * h := Nat.mul_comm h w

theorem rowmajor_inj {w x₁ x₂ y₁ y₂ : Nat} (h₁ : x₁ < w) (h₂ : x₂ < w)
    (heq : y₁ * w + x₁ = y₂ * w + x₂) : x₁ = x₂ ∧ y₁ = y₂ := by
  have hy : y₁ = y₂ := by
    rcases Nat.lt_trichotomy y₁ y₂ with hlt | he | hgt
    · exfalso
      have : (y₁ + 1) * w ≤ y₂ * w := Nat.mul_le_mul_right w hlt
      have : y₁ * w + w ≤ y₂ * w := by linarith [this, Nat.succ_mul y₁ w]
      omega
    · exact he
    · exfalso
      have : (y₂ + 1) * w ≤ y₁ * w := Nat.mul_le_mul_right w hgt
      have : y₂ * w + w ≤ y₁ * w := by linarith [this, Nat.succ_mul y₂ w]
      omega
  subst hy
  omega


/-! ### The row-major coordinate enumeration -/

/-- The coordinate list of a `w` by `h` grid, row-major (`y` outer, `x`
inner), as produced by `TileMap::coords`. -/
def coordsList (w h : Nat) : List (Int × Int) :=
  (List.range h).flatMap fun (y : Nat) =>
    (List.range w).map fun (x : Nat) => ((x : Int), (y : Int))

theorem coords_eq (m : TileMap) {w h : Nat} (hd : m.dim = ((w : Int), (h : Int))) :
    m.coords = coordsList w h := by
  unfold TileMap.coords coordsList
  rw [hd]
  simp only [Int.toNat_natCast]

theorem coordsList_succ (w h : Nat) :
    coordsList w (h + 1) =
      coordsList w h ++ (List.range w).map (fun (x : Nat) => ((x : Int), (h : Int))) := by
  unfold coordsList
  rw [List.range_succ, List.flatMap_append]
  simp

theorem coordsList_length (w h : Nat) : (coordsList w h).length = h * w := by
  induction h with
  | zero => simp [coordsList]
  | succ k ih =>
    rw [coordsList_succ, List.length_append, ih]
    simp [Nat.succ_mul]

theorem coordsList_getElem? {w x y : Nat} (hx : x < w) :
    ∀ {h : Nat}, y < h → (coordsList w h)[y * w + x]? = some ((x : Int), (y : Int)) := by
  intro h
  induction h with
  | zero => omega
  | succ k ih =>
    intro hy
    rw [coordsList_succ]
    by_cases hk : y < k
    · rw [List.getElem?_append, if_pos]
      · exact ih hk
      · rw [coordsList_length]
        exact rowmajor_lt hx hk |>.trans_eq (Nat.mul_comm w k)
    · have hyk : y = k := by omega
      subst hyk
      rw [List.getElem?_append_right (by rw [coordsList_length]; omega)]
      rw [coordsList_length, Nat.add_sub_cancel_left]
      rw [List.getElem?_map, List.getElem?_range hx]
      rfl

theorem mem_coordsList {w h : Nat} {c : Int × Int} :
    c ∈ coordsList w h ↔ 0 ≤ c.1 ∧ c.1 < (w : Int) ∧ 0 ≤ c.2 ∧ c.2 < (h : Int) := by
  unfold coordsList
  simp only [List.mem_flatMap, List.mem_map, List.mem_range]
  constructor
  · rintro ⟨y, hy, x, hx, rfl⟩
    refine ⟨?_, ?_, ?_, ?_⟩ <;> simp <;> omega
  · rintro ⟨h1, h2, h3, h4⟩
    refine ⟨c.2.toNat, by omega, c.1.toNat, by omega, ?_⟩
    exact Prod.ext (Int.toNat_of_nonneg h1) (Int.toNat_of_nonneg h3)

theorem coordsList_nodup (w h : Nat) : (coordsList w h).Nodup := by
  induction h with
  | zero => exact List.nodup_nil
  | succ k ih =>
    rw [coordsList_succ]
    refine List.Nodup.append ih ?_ ?_
    · refine List.Nodup.map ?_ (List.nodup_range w)
      intro a b hab
      simpa using hab
    · rw [List.disjoint_left]
      intro c hc hmem
      rw [mem_coordsList] at hc
      simp only [List.mem_map, List.mem_range] at hmem
      obtain ⟨x, -, rfl⟩ := hmem
      simp only at hc
      omega

/-! ### all_tiles as a map over the coordinate list -/

theorem get_tiles_reduceOption (m : TileMap) (cs : List (Int × Int))
    (hall : ∀ c ∈ cs, bound_check c m.dim = true) :
    (m.get_tiles cs).reduceOption =
      cs.map fun c => TileView.mk c m.n_mines m.dim := by
  induction cs with
  | nil => rfl
  | cons c cs ih =>
    unfold TileMap.get_tiles
    simp only [List.map_cons]
    rw [if_pos (hall c (List.mem_cons_self c cs)), List.reduceOption_cons_of_some]
    have := ih fun c hc => hall c (List.mem_cons_of_mem _ hc)
    unfold TileMap.get_tiles at this
    rw [this]

theorem all_tiles_eq (m : TileMap) {w h : Nat}
    (hd : m.dim = ((w : Int), (h : Int))) :
    m.all_tiles = (coordsList w h).map fun c => TileView.mk c m.n_mines m.dim := by
  unfold TileMap.all_tiles
  rw [coords_eq m hd]
  apply get_tiles_reduceOption
  intro c hc
  rw [mem_coordsList] at hc
  rw [hd, bound_check_iff]
  exact ⟨hc.1, hc.2.2.1, hc.2.1, hc.2.2.2⟩

/-! ### The derivation pass -/

theorem neighbors_length_le (v : TileView) : v.neighbors.length ≤ 8 := by
  unfold TileView.neighbors
  exact List.length_filterMap_le _ _ |>.trans (by rfl)

theorem adj_count_le (v : TileView) (tiles : List Int) :
    (v.neighbors.filter fun nb => nb.is_mine tiles).length ≤ 8 :=
  (List.length_filter_le _ _).trans (neighbors_length_le v)

theorem deriveStep_length (tiles : List Int) (v : TileView) :
    (deriveStep tiles v).length = tiles.length := by
  unfold deriveStep TileView.set_state
  split
  · rfl
  · exact List.length_set tiles v.index _

theorem deriveFold_length (views : List TileView) (tiles : List Int) :
    (deriveFold views tiles).length = tiles.length := by
  induction views generalizing tiles with
  | nil => rfl
  | cons u rest ih =>
    unfold deriveFold at ih ⊢
    rw [List.foldl_cons, ih, deriveStep_length]

theorem set_state_clear (v : TileView) (n : Nat) (tiles : List Int) :
    v.set_state (TileState.Clear n) tiles = tiles.set v.index (toI8 n) := rfl

theorem set_state_mine (v : TileView) (tiles : List Int) :
    v.set_state TileState.Mine tiles = tiles.set v.index (-1) := rfl

theorem deriveStep_sign (tiles : List Int) (v : TileView) (i : Nat) :
    (deriveStep tiles v).getD i 0 < 0 ↔ tiles.getD i 0 < 0 := by
  unfold deriveStep
  split
  · rfl
  · rename_i hmine
    rw [is_mine_eq] at hmine
    simp only [decide_eq_true_eq] at hmine
    rw [set_state_clear]
    rw [toI8_of_lt (by have := adj_count_le v tiles; omega)]
    simp only [List.getD_eq_getElem?_getD, List.getElem?_set]
    split
    · rename_i hiv
      subst hiv
      split
      · simp only [Option.getD_some]
        constructor
        · intro hcon
          exfalso
          omega
        · intro hcon
          exfalso
          rw [List.getD_eq_getElem?_getD] at hmine
          exact hmine hcon
      · rename_i hlen
        rw [List.getElem?_eq_none (by omega)]
    · rfl

theorem deriveFold_sign (views : List TileView) (tiles : List Int) (i : Nat) :
    (deriveFold views tiles).getD i 0 < 0 ↔ tiles.getD i 0 < 0 := by
  induction views generalizing tiles with
  | nil => rfl
  | cons u rest ih =>
    unfold deriveFold at ih ⊢
    rw [List.foldl_cons]
    rw [ih (deriveStep tiles u)]
    exact deriveStep_sign tiles u i

theorem is_mine_congr (v : TileView) {t₁ t₂ : List Int}
    (hsign : ∀ i, t₁.getD i 0 < 0 ↔ t₂.getD i 0 < 0) :
    v.is_mine t₁ = v.is_mine t₂ := by
  rw [is_mine_eq, is_mine_eq]
  exact decide_eq_decide.mpr (hsign v.index)

theorem adj_count_congr (v : TileView) {t₁ t₂ : List Int}
    (hsign : ∀ i, t₁.getD i 0 < 0 ↔ t₂.getD i 0 < 0) :
    (v.neighbors.filter fun nb => nb.is_mine t₁) =
      (v.neighbors.filter fun nb => nb.is_mine t₂) :=
  List.filter_congr fun nb _ => is_mine_congr nb hsign

theorem deriveFold_untouched (views : List TileView) (tiles : List Int) (i : Nat)
    (hne : ∀ v ∈ views, v.index ≠ i) :
    (deriveFold views tiles).getD i 0 = tiles.getD i 0 := by
  induction views generalizing tiles with
  | nil => rfl
  | cons u rest ih =>
    unfold deriveFold at ih ⊢
    rw [List.foldl_cons]
    rw [ih _ fun v hv => hne v (List.mem_cons_of_mem _ hv)]
    unfold deriveStep
    split
    · rfl
    · unfold TileView.set_state
      simp only [List.getD_eq_getElem?_getD]
      rw [List.getElem?_set_ne (hne u (List.mem_cons_self u rest))]

theorem deriveFold_mine_untouched (views : List TileView) (tiles : List Int)
    (i : Nat) (hmine : tiles.getD i 0 < 0) :
    (deriveFold views tiles).getD i 0 = tiles.getD i 0 := by
  induction views generalizing tiles with
  | nil => rfl
  | cons u rest ih =>
    unfold deriveFold at ih ⊢
    rw [List.foldl_cons]
    have hstep : (deriveStep tiles u).getD i 0 = tiles.getD i 0 := by
      unfold deriveStep
      split
      · rfl
      · rename_i hm
        rw [is_mine_eq] at hm
        simp only [decide_eq_true_eq] at hm
        have hne : u.index ≠ i := by
          intro hcon
          rw [hcon] at hm
          exact hm hmine
        unfold TileView.set_state
        simp only [List.getD_eq_getElem?_getD]
        rw [List.getElem?_set_ne hne]
    rw [ih (deriveStep tiles u) (by rw [hstep]; exact hmine), hstep]

theorem deriveStep_of_clear (tiles : List Int) (v : TileView)
    (hclear : ¬ tiles.getD v.index 0 < 0) :
    deriveStep tiles v =
      tiles.set v.index
        ((v.neighbors.filter fun nb => nb.is_mine tiles).length : Int) := by
  unfold deriveStep
  rw [if_neg (by rw [is_mine_eq]; simpa using hclear)]
  rw [set_state_clear, toI8_of_lt (by have := adj_count_le v tiles; omega)]

theorem deriveFold_value (views : List TileView) (tiles : List Int)
    (v : TileView) (hdist : views.Pairwise fun a b => a.index ≠ b.index)
    (hv : v ∈ views) (hclear : ¬ tiles.getD v.index 0 < 0)
    (hlen : v.index < tiles.length) :
    (deriveFold views tiles).getD v.index 0 =
      ((v.neighbors.filter fun nb => nb.is_mine tiles).length : Int) := by
  induction views generalizing tiles with
  | nil => cases hv
  | cons u rest ih =>
    obtain ⟨hu, hrest⟩ := List.pairwise_cons.mp hdist
    unfold deriveFold at ih ⊢
    rw [List.foldl_cons]
    by_cases huv : v = u
    · subst huv
      rw [deriveStep_of_clear tiles v hclear]
      have huntouched := deriveFold_untouched rest
        (tiles.set v.index ((v.neighbors.filter fun nb => nb.is_mine tiles).length : Int))
        v.index (fun b hb => (hu b hb).symm)
      unfold deriveFold at huntouched
      rw [huntouched]
      simp only [List.getD_eq_getElem?_getD]
      rw [List.getElem?_set_self hlen]
      rfl
    · have hvrest : v ∈ rest := by
        rcases List.mem_cons.mp hv with h | h
        · exact absurd h huv
        · exact h
      have hsign := deriveStep_sign tiles u
      have hres := ih (deriveStep tiles u) hrest hvrest
        (by rw [hsign]; exact hclear) (by rw [deriveStep_length]; exact hlen)
      rw [hres, adj_count_congr v hsign]

theorem deriveFold_perm (views views' : List TileView) (tiles : List Int)
    (hp : views'.Perm views)
    (hdist : views.Pairwise fun a b => a.index ≠ b.index) :
    deriveFold views' tiles = deriveFold views tiles := by
  have hdist' : views'.Pairwise fun a b => a.index ≠ b.index :=
    (List.Perm.pairwise_iff (fun hab => hab.symm) hp).mpr hdist
  apply List.ext_getElem (by rw [deriveFold_length, deriveFold_length])
  intro i h1 h2
  have hi : i < tiles.length := by rwa [deriveFold_length] at h1
  rw [← List.getD_eq_getElem (deriveFold views' tiles) 0 h1,
    ← List.getD_eq_getElem (deriveFold views tiles) 0 h2]
  by_cases hm : tiles.getD i 0 < 0
  · rw [deriveFold_mine_untouched views' tiles i hm,
      deriveFold_mine_untouched views tiles i hm]
  · by_cases hex : ∃ v ∈ views, v.index = i
    · obtain ⟨v, hv, hvi⟩ := hex
      subst hvi
      rw [deriveFold_value views tiles v hdist hv hm hi,
        deriveFold_value views' tiles v hdist' (hp.mem_iff.mpr hv) hm hi]
    · push_neg at hex
      rw [deriveFold_untouched views tiles i hex,
        deriveFold_untouched views' tiles i (fun v hv => hex v (hp.subset hv))]

/-! ### Characterizing TileMap.random -/

/-- The buffer of `random` right after the fill and the RNG shuffle. -/
def shuffledBase (w h n : Nat) (shuffle : List Int → List Int) : List Int :=
  shuffle (mineFill (List.replicate (w * h % 2 ^ 32) 0) n)

/-- The board of `random` right before the derivation pass. -/
def baseBoard (w h n : Nat) (shuffle : List Int → List Int) : TileMap :=
  { n_mines := 0
    dim := ((w : Int), (h : Int))
    tiles := shuffledBase w h n shuffle }

theorem random_eq_some (w h n : Nat) (shuffle : List Int → List Int)
    (hw : w < 2 ^ 31) (hh : h < 2 ^ 31) (hn : n ≤ w * h % 2 ^ 32) :
    TileMap.random w h n shuffle =
      some { n_mines := 0
             dim := ((w : Int), (h : Int))
             tiles := deriveFold (baseBoard w h n shuffle).all_tiles
               (shuffledBase w h n shuffle) } := by
  unfold TileMap.random TileMap.empty baseBoard shuffledBase
  rw [if_pos (by simp only [Bool.and_eq_true, decide_eq_true_eq]; exact ⟨hw, hh⟩)]
  split
  · rename_i heq
    cases heq
  · rename_i board heq
    have hbd := Option.some.inj heq
    subst hbd
    simp only [List.length_replicate]
    rw [if_pos hn]

theorem random_some_bounds {w h n : Nat} {shuffle : List Int → List Int}
    {b : TileMap} (hb : TileMap.random w h n shuffle = some b) :
    w < 2 ^ 31 ∧ h < 2 ^ 31 ∧ n ≤ w * h % 2 ^ 32 := by
  unfold TileMap.random TileMap.empty at hb
  by_cases hw : (decide (w < 2 ^ 31) && decide (h < 2 ^ 31)) = true
  · rw [if_pos hw] at hb
    simp only [List.length_replicate] at hb
    simp only [Bool.and_eq_true, decide_eq_true_eq] at hw
    by_cases hn : n ≤ w * h % 2 ^ 32
    · exact ⟨hw.1, hw.2, hn⟩
    · rw [if_neg hn] at hb
      cases hb
  · rw [if_neg hw] at hb
    cases hb

theorem index_inj_on_coords {w h nm₁ nm₂ : Nat} {a b : Int × Int}
    (ha : 0 ≤ a.1 ∧ a.1 < (w : Int) ∧ 0 ≤ a.2 ∧ a.2 < (h : Int))
    (hb : 0 ≤ b.1 ∧ b.1 < (w : Int) ∧ 0 ≤ b.2 ∧ b.2 < (h : Int))
    (hidx : (TileView.mk a nm₁ ((w : Int), (h : Int))).index =
      (TileView.mk b nm₂ ((w : Int), (h : Int))).index) :
    a = b := by
  obtain ⟨a1, a2⟩ := a
  obtain ⟨b1, b2⟩ := b
  simp only at ha hb
  rw [index_mk ha.1 ha.2.2.1, index_mk hb.1 hb.2.2.1] at hidx
  obtain ⟨hx, hy⟩ := rowmajor_inj (w := w) (by omega) (by omega) hidx
  have he1 : a1 = b1 := by omega
  have he2 : a2 = b2 := by omega
  rw [he1, he2]

theorem boardViews_pairwise (w h nm : Nat) :
    (((coordsList w h).map fun c => TileView.mk c nm ((w : Int), (h : Int))).Pairwise
      fun a b => a.index ≠ b.index) := by
  rw [List.pairwise_map]
  refine (coordsList_nodup w h).imp_of_mem ?_
  intro a b ha hb hne hcon
  rw [mem_coordsList] at ha hb
  exact hne (index_inj_on_coords ha hb hcon)

/-! ### Counting mines -/

theorem countP_sign_congr (l₁ : List Int) :
    ∀ l₂ : List Int, l₁.length = l₂.length →
      (∀ i, l₁.getD i 0 < 0 ↔ l₂.getD i 0 < 0) →
      l₁.countP (fun t => decide (t < 0)) = l₂.countP (fun t => decide (t < 0)) := by
  induction l₁ with
  | nil =>
    intro l₂ hl _
    rw [← List.length_eq_zero.mp hl.symm]
  | cons a l ih =>
    intro l₂ hl hsign
    cases l₂ with
    | nil => simp at hl
    | cons b l' =>
      rw [List.countP_cons, List.countP_cons]
      have h0 := hsign 0
      simp only [List.getD_cons_zero] at h0
      have htail := ih l' (by simpa using hl) fun i => by
        have := hsign (i + 1)
        simpa only [List.getD_cons_succ] using this
      rw [htail, decide_eq_decide.mpr h0]

theorem mineFill_countP {len n : Nat} :
    (mineFill (List.replicate len (0 : Int)) n).countP (fun t => decide (t < 0)) =
      n := by
  unfold mineFill
  rw [List.drop_replicate, List.countP_append, List.countP_replicate,
    List.countP_replicate]
  norm_num

theorem mineFill_length {len n : Nat} (hn : n ≤ len) :
    (mineFill (List.replicate len (0 : Int)) n).length = len := by
  unfold mineFill
  simp only [List.length_append, List.length_replicate, List.length_drop]
  omega

theorem random_characterized {w h n : Nat} {shuffle : List Int → List Int}
    {b : TileMap} (hperm : ∀ l, (shuffle l).Perm l)
    (hb : TileMap.random w h n shuffle = some b) :
    b.n_mines = 0 ∧ b.dim = ((w : Int), (h : Int)) ∧
    b.tiles.length = w * h % 2 ^ 32 ∧
    b.tiles.countP (fun t => decide (t < 0)) = n := by
  obtain ⟨hw, hh, hn⟩ := random_some_bounds hb
  rw [random_eq_some w h n shuffle hw hh hn] at hb
  have hb' := Option.some.inj hb
  subst hb'
  refine ⟨rfl, rfl, ?_, ?_⟩
  · rw [deriveFold_length]
    unfold shuffledBase
    rw [(hperm _).length_eq, mineFill_length hn]
  · have hfold := countP_sign_congr
      (deriveFold (baseBoard w h n shuffle).all_tiles (shuffledBase w h n shuffle))
      (shuffledBase w h n shuffle)
      (deriveFold_length _ _)
      (deriveFold_sign _ _)
    rw [hfold]
    unfold shuffledBase
    rw [(hperm _).countP_eq, mineFill_countP]

theorem countP_clear_add_mine (l : List Int) :
    l.countP (fun t => (cellState t).isClear) +
      l.countP (fun t => decide (cellState t = TileState.Mine)) = l.length := by
  induction l with
  | nil => rfl
  | cons a l ih =>
    simp only [List.countP_cons, List.length_cons]
    by_cases h : a < 0
    · have h1 : (cellState a).isClear = false := by
        rw [← Bool.not_eq_true]
        rw [cellState_isClear_iff]
        omega
      have h2 : decide (cellState a = TileState.Mine) = true := by
        rw [decide_eq_true_eq, cellState_eq_mine_iff]
        exact h
      rw [h1, h2]
      simp only [if_false, if_true, Bool.false_eq_true]
      omega
    · have h1 : (cellState a).isClear = true := by
        rw [cellState_isClear_iff]
        omega
      have h2 : decide (cellState a = TileState.Mine) = false := by
        rw [← Bool.not_eq_true, decide_eq_true_eq, cellState_eq_mine_iff]
        omega
      rw [h1, h2]
      simp only [if_false, if_true, Bool.false_eq_true]
      omega

theorem index_lt_of_mem {w h nm : Nat} {c : Int × Int}
    (hc : 0 ≤ c.1 ∧ c.1 < (w : Int) ∧ 0 ≤ c.2 ∧ c.2 < (h : Int)) :
    (TileView.mk c nm ((w : Int), (h : Int))).index < w * h := by
  obtain ⟨c1, c2⟩ := c
  simp only at hc
  rw [index_mk hc.1 hc.2.2.1]
  exact rowmajor_lt (by omega) (by omega)

theorem deriveFold_final (w h nm : Nat) (tiles0 : List Int)
    (hlen : tiles0.length = w * h) (v : TileView)
    (hv : v ∈ (coordsList w h).map fun c0 => TileView.mk c0 nm ((w : Int), (h : Int)))
    (hclear : ¬ tiles0.getD v.index 0 < 0) :
    (deriveFold ((coordsList w h).map fun c0 =>
        TileView.mk c0 nm ((w : Int), (h : Int))) tiles0).getD v.index 0 =
      ((v.neighbors.filter fun nb => nb.is_mine (deriveFold ((coordsList w h).map
        fun c0 => TileView.mk c0 nm ((w : Int), (h : Int))) tiles0)).length : Int) := by
  have hlt : v.index < tiles0.length := by
    obtain ⟨c0, hc0, rfl⟩ := List.mem_map.mp hv
    rw [hlen]
    exact index_lt_of_mem (mem_coordsList.mp hc0)
  rw [deriveFold_value _ tiles0 v (boardViews_pairwise w h nm) hv hclear hlt]
  have hsign := deriveFold_sign ((coordsList w h).map fun c0 =>
    TileView.mk c0 nm ((w : Int), (h : Int))) tiles0
  rw [adj_count_congr v hsign]

theorem state_set_same (v₁ v₂ : TileView) (tiles : List Int) (s : TileState)
    (hidx : v₂.index = v₁.index) (hlt : v₁.index < tiles.length)
    (hs : s = TileState.Mine ∨ ∃ k, k ≤ 127 ∧ s = TileState.Clear k) :
    v₂.state (v₁.set_state s tiles) = s := by
  rcases hs with rfl | ⟨k, hk, rfl⟩
  · rw [set_state_mine]
    unfold TileView.state
    rw [hidx]
    simp only [List.getD_eq_getElem?_getD]
    rw [List.getElem?_set_self hlt]
    rfl
  · rw [set_state_clear]
    unfold TileView.state
    rw [hidx]
    simp only [List.getD_eq_getElem?_getD]
    rw [List.getElem?_set_self hlt]
    rw [toI8_of_lt (by omega)]
    simp only [Option.getD_some]
    unfold cellState
    rw [if_neg (by omega)]
    simp only [Int.toNat_natCast]

/-! ## Claim theorems -/

/-- C4, counterexample: `TileMap::random(1, 1, 2)` does not return an
all-mine board; the slice fill `tiles[..2]` on a 1-cell buffer panics
(modelled as `none`), so no board at all is produced. -/
theorem claim_C4_counterexample : TileMap.random 1 1 2 id = none := by rfl

/-- C4 (amended): for every `n_mines > width * height`, `TileMap::random`
fails (the `board.tiles[..n_mines].fill(-1)` slice operation panics because
the range end exceeds the buffer length); it does not return a board of any
kind, all-mine or otherwise. -/
theorem claim_C4_random_overfull (w h n : Nat) (shuffle : List Int → List Int)
    (hn : w * h < n) : TileMap.random w h n shuffle = none := by
  unfold TileMap.random TileMap.empty
  by_cases hw : (decide (w < 2 ^ 31) && decide (h < 2 ^ 31)) = true
  · rw [if_pos hw]
    split
    · rfl
    · rename_i board heq
      have hbd := Option.some.inj heq
      subst hbd
      rw [if_neg (by simp only [List.length_replicate]; omega)]
  · rw [if_neg hw]

/-- C4 witness: the amended theorem applied at `width = 2`, `height = 2`,
`n_mines = 5`. -/
theorem claim_C4_witness : 2 * 2 < 5 ∧ TileMap.random 2 2 5 id = none :=
  ⟨by norm_num, claim_C4_random_overfull 2 2 5 id (by norm_num)⟩

/-- C5, counterexample: the claimed `InvalidDimensions` rejection does not
exist. `empty(65536, 65536)` succeeds with a zero-length buffer (the `u32`
product wraps to `0` silently), and `empty(2^31, 1)` fails with a panic at
the `i32` conversion even though `2^31` is representable by the platform
index type. -/
theorem claim_C5_counterexample :
    (TileMap.empty 65536 65536).map (fun b => b.tiles.length) = some 0 ∧
    TileMap.empty (2 ^ 31) 1 = none := by
  constructor
  · rfl
  · rfl

/-- C5 (amended): for `width, height < 2^31` with `width * height < 2^32`,
`empty` returns a map whose buffer has exactly `width * height` cells, every
cell decoding to `Clear(0)`, with `n_mines = 0`. Outside that range it does
not reject with an `InvalidDimensions` condition: `width` or `height ≥ 2^31`
panics at the `i32` conversion, and a `u32` product overflow wraps modulo
`2^32` silently (see the counterexample). -/
theorem claim_C5_empty (w h : Nat) (hw : w < 2 ^ 31) (hh : h < 2 ^ 31)
    (hwh : w * h < 2 ^ 32) :
    ∃ b, TileMap.empty w h = some b ∧ b.tiles.length = w * h ∧
      (∀ t ∈ b.tiles, cellState t = TileState.Clear 0) ∧ b.n_mines = 0 ∧
      b.dim = ((w : Int), (h : Int)) := by
  refine ⟨{ n_mines := 0
            dim := ((w : Int), (h : Int))
            tiles := List.replicate (w * h % 2 ^ 32) 0 }, ?_, ?_, ?_, rfl, rfl⟩
  · unfold TileMap.empty
    rw [if_pos (by simp only [Bool.and_eq_true, decide_eq_true_eq]; exact ⟨hw, hh⟩)]
  · simp only [List.length_replicate]
    exact Nat.mod_eq_of_lt hwh
  · intro t ht
    have h0 := List.eq_of_mem_replicate ht
    subst h0
    rfl

/-- C5 witness: the amended theorem applied at `width = 2`, `height = 3`. -/
theorem claim_C5_witness :
    ∃ b, TileMap.empty 2 3 = some b ∧ b.tiles.length = 2 * 3 ∧
      (∀ t ∈ b.tiles, cellState t = TileState.Clear 0) ∧ b.n_mines = 0 ∧
      b.dim = ((2 : Int), (3 : Int)) :=
  claim_C5_empty 2 3 (by norm_num) (by norm_num) (by norm_num)

/-- C6: `get_tile` returns `none` exactly on out-of-bounds coordinates and
otherwise a view at that coordinate; `tile` is `get_tile` with the panic in
place of the `none` (same condition), and `with_coordinate` /
`try_with_coordinate` fail (panic, resp. `none`) under exactly the same
out-of-bounds condition on the view's grid and succeed otherwise. -/
theorem claim_C6_bounds (m : TileMap) (c : Int × Int) :
    ((m.get_tile c = none) ↔
      (c.1 < 0 ∨ m.dim.1 ≤ c.1 ∨ c.2 < 0 ∨ m.dim.2 ≤ c.2)) ∧
    (¬ (c.1 < 0 ∨ m.dim.1 ≤ c.1 ∨ c.2 < 0 ∨ m.dim.2 ≤ c.2) →
      m.get_tile c = some (TileView.mk c m.n_mines m.dim)) ∧
    m.tile c = m.get_tile c ∧
    (∀ v : TileView,
      ((v.with_coordinate c = none) ↔
        (c.1 < 0 ∨ v.dim.1 ≤ c.1 ∨ c.2 < 0 ∨ v.dim.2 ≤ c.2)) ∧
      (¬ (c.1 < 0 ∨ v.dim.1 ≤ c.1 ∨ c.2 < 0 ∨ v.dim.2 ≤ c.2) →
        v.with_coordinate c = some { v with coord := c }) ∧
      v.try_with_coordinate c = v.with_coordinate c) := by
  have key : ∀ dim : Int × Int,
      ((bound_check c dim = true) ↔
        ¬ (c.1 < 0 ∨ dim.1 ≤ c.1 ∨ c.2 < 0 ∨ dim.2 ≤ c.2)) := by
    intro dim
    rw [bound_check_iff]
    omega
  refine ⟨?_, ?_, rfl, ?_⟩
  · unfold TileMap.get_tile
    by_cases hbc : bound_check c m.dim = true
    · rw [if_pos hbc]
      simp only [reduceCtorEq, false_iff]
      exact (key m.dim).mp hbc
    · rw [if_neg hbc]
      simp only [true_iff]
      by_contra hcon
      exact hbc ((key m.dim).mpr hcon)
  · intro hin
    unfold TileMap.get_tile
    rw [if_pos ((key m.dim).mpr hin)]
  · intro v
    refine ⟨?_, ?_, rfl⟩
    · unfold TileView.with_coordinate
      by_cases hbc : bound_check c v.dim = true
      · rw [if_pos hbc]
        simp only [reduceCtorEq, false_iff]
        exact (key v.dim).mp hbc
      · rw [if_neg hbc]
        simp only [true_iff]
        by_contra hcon
        exact hbc ((key v.dim).mpr hcon)
    · intro hin
      unfold TileView.with_coordinate
      rw [if_pos ((key v.dim).mpr hin)]

/-- C6 witness: the theorem applied to a 2 by 2 map at the in-bounds
coordinate `(1, 1)` and (through its first component) at the out-of-bounds
coordinate `(2, 1)`. -/
theorem claim_C6_witness :
    TileMap.get_tile { n_mines := 0, dim := (2, 2), tiles := [0, 0, 0, 0] }
        (1, 1) =
      some (TileView.mk (1, 1) 0 (2, 2)) ∧
    TileMap.get_tile { n_mines := 0, dim := (2, 2), tiles := [0, 0, 0, 0] }
        (2, 1) =
      none := by
  constructor
  · exact (claim_C6_bounds { n_mines := 0, dim := (2, 2), tiles := [0, 0, 0, 0] }
      (1, 1)).2.1 (by simp)
  · exact (claim_C6_bounds { n_mines := 0, dim := (2, 2), tiles := [0, 0, 0, 0] }
      (2, 1)).1.mpr (by simp)

/-- C8: `coords()` enumerates `[0,width) x [0,height)` row-major: the list
has length `height * width`, the entry at linear position `y * width + x` is
exactly `(x, y)` (so `y` varies in the outer position and `x` in the inner),
it contains no duplicates, and its members are exactly the in-bounds
coordinates. Re-enumerability holds because `coords` is a pure function of
the map. -/
theorem claim_C8_coords (m : TileMap) (w h : Nat)
    (hd : m.dim = ((w : Int), (h : Int))) :
    m.coords.length = h * w ∧
    (∀ x y : Nat, x < w → y < h →
      m.coords[y * w + x]? = some ((x : Int), (y : Int))) ∧
    m.coords.Nodup ∧
    (∀ c : Int × Int, c ∈ m.coords ↔
      0 ≤ c.1 ∧ c.1 < (w : Int) ∧ 0 ≤ c.2 ∧ c.2 < (h : Int)) := by
  rw [coords_eq m hd]
  exact ⟨coordsList_length w h, fun x y hx hy => coordsList_getElem? hx hy,
    coordsList_nodup w h, fun c => mem_coordsList⟩

/-- C8 witness: the theorem applied to a 3 by 2 map. -/
theorem claim_C8_witness :
    (TileMap.coords { n_mines := 0, dim := (3, 2), tiles := [] }).length =
      2 * 3 ∧
    (TileMap.coords { n_mines := 0, dim := (3, 2), tiles := [] }).Nodup := by
  have h := claim_C8_coords { n_mines := 0, dim := (3, 2), tiles := [] } 3 2 rfl
  exact ⟨h.1, h.2.2.1⟩

/-- C9, counterexample: the write is observed through the second view, but
not every state round-trips. Writing `Clear(128)` through the (only) view of
a 1 by 1 map and reading through a view at the same coordinate yields
`Mine`, not `Clear(128)`: the claim as stated ("returns the written state s"
for every state `s`) is false. -/
theorem claim_C9_counterexample :
    TileMap.get_tile { n_mines := 0, dim := (1, 1), tiles := [0] } (0, 0) =
      some (TileView.mk (0, 0) 0 (1, 1)) ∧
    (TileView.mk (0, 0) 0 (1, 1)).state
        ((TileView.mk (0, 0) 0 (1, 1)).set_state (TileState.Clear 128) [0]) =
      TileState.Mine :=
  ⟨rfl, rfl⟩

/-- C9 (amended): for every state `s` that survives the `i8` encoding
(`Mine`, or `Clear(k)` with `k ≤ 127`), writing `s` through one view and
reading through a second view over the same coordinate of the same map
returns `s` — the views alias one shared buffer. (For `Clear(k)` with
`k ≥ 128` the read returns `Mine` instead; see the counterexample.) -/
theorem claim_C9_aliasing (m : TileMap) (w h : Nat)
    (hd : m.dim = ((w : Int), (h : Int))) (hlen : w * h ≤ m.tiles.length)
    (c : Int × Int) (v₁ v₂ : TileView) (s : TileState)
    (h₁ : m.get_tile c = some v₁)
    (h₂c : v₂.coord = c) (h₂d : v₂.dim = m.dim)
    (hs : s = TileState.Mine ∨ ∃ k, k ≤ 127 ∧ s = TileState.Clear k) :
    v₂.state (v₁.set_state s m.tiles) = s := by
  unfold TileMap.get_tile at h₁
  by_cases hbc : bound_check c m.dim = true
  · rw [if_pos hbc] at h₁
    have hv₁ := Option.some.inj h₁
    subst hv₁
    rw [hd, bound_check_iff] at hbc
    simp only at hbc
    have hidx : v₂.index = (TileView.mk c m.n_mines m.dim).index := by
      unfold TileView.index
      rw [h₂c, h₂d]
    have hlt : (TileView.mk c m.n_mines m.dim).index < m.tiles.length := by
      have hwh : (TileView.mk c m.n_mines m.dim).index < w * h := by
        rw [hd]
        exact index_lt_of_mem ⟨hbc.1, hbc.2.2.1, hbc.2.1, hbc.2.2.2⟩
      omega
    exact state_set_same _ v₂ m.tiles s hidx hlt hs
  · rw [if_neg hbc] at h₁
    cases h₁

/-- C9 witness: the amended theorem applied on a 2 by 1 map at coordinate
`(1, 0)` with the state `Clear(5)`. -/
theorem claim_C9_witness :
    (TileView.mk (1, 0) 0 (2, 1)).state
        ((TileView.mk (1, 0) 0 (2, 1)).set_state (TileState.Clear 5) [0, 0]) =
      TileState.Clear 5 :=
  claim_C9_aliasing { n_mines := 0, dim := (2, 1), tiles := [0, 0] } 2 1 rfl
    (by norm_num) (1, 0) (TileView.mk (1, 0) 0 (2, 1))
    (TileView.mk (1, 0) 0 (2, 1)) (TileState.Clear 5) rfl rfl rfl
    (Or.inr ⟨5, by norm_num, rfl⟩)

/-- C10: after `set_state(Mine)` the read-back is `Mine`; after
`set_state(Clear(n))` with `n ≤ 255` the read-back is `Clear(n)` when
`n ≤ 127` but `Mine` when `n ≥ 128`, because the stored value is the `u8`
cast to `i8` (two's complement), which is negative exactly for `n ≥ 128`. -/
theorem claim_C10_roundtrip (v : TileView) (tiles : List Int)
    (hlt : v.index < tiles.length) :
    v.state (v.set_state TileState.Mine tiles) = TileState.Mine ∧
    ∀ n : Nat, n ≤ 255 →
      v.state (v.set_state (TileState.Clear n) tiles) =
        if n ≤ 127 then TileState.Clear n else TileState.Mine := by
  constructor
  · exact state_set_same v v tiles _ rfl hlt (Or.inl rfl)
  · intro n hn
    by_cases hsm : n ≤ 127
    · rw [if_pos hsm]
      exact state_set_same v v tiles _ rfl hlt (Or.inr ⟨n, hsm, rfl⟩)
    · rw [if_neg hsm]
      rw [set_state_clear]
      unfold TileView.state
      simp only [List.getD_eq_getElem?_getD]
      rw [List.getElem?_set_self hlt]
      have ht : toI8 n < 0 := by
        unfold toI8
        rw [Nat.mod_eq_of_lt (by omega), if_neg (by omega)]
        omega
      simp only [Option.getD_some]
      unfold cellState
      rw [if_pos ht]

/-- C10 witness: the theorem applied to the single view of a 1 by 1 map,
with `n = 200` (read back as `Mine`) and `n = 7` (read back as
`Clear(7)`). -/
theorem claim_C10_witness :
    (TileView.mk (0, 0) 0 (1, 1)).state
        ((TileView.mk (0, 0) 0 (1, 1)).set_state TileState.Mine [3]) =
      TileState.Mine ∧
    (TileView.mk (0, 0) 0 (1, 1)).state
        ((TileView.mk (0, 0) 0 (1, 1)).set_state (TileState.Clear 200) [3]) =
      TileState.Mine ∧
    (TileView.mk (0, 0) 0 (1, 1)).state
        ((TileView.mk (0, 0) 0 (1, 1)).set_state (TileState.Clear 7) [3]) =
      TileState.Clear 7 := by
  have hm := claim_C10_roundtrip (TileView.mk (0, 0) 0 (1, 1)) [3] (by decide)
  refine ⟨hm.1, ?_, ?_⟩
  · have h2 := hm.2 200 (by norm_num)
    rw [if_neg (by norm_num)] at h2
    exact h2
  · have h3 := hm.2 7 (by norm_num)
    rw [if_pos (by norm_num)] at h3
    exact h3

/-- C1: the field `n_mines` is never assigned inside `TileMap::random`
(`empty` initializes it to 0 and `random` forgets to overwrite it), so
`n_mines()` returns 0 while the storage holds exactly `n` mine-sentinel
cells — the documented invariant fails for every `n ≥ 1`. -/
theorem claim_C1_n_mines_bug (w h n : Nat) (shuffle : List Int → List Int)
    (hperm : ∀ l, (shuffle l).Perm l) (hn : 1 ≤ n) (b : TileMap)
    (hb : TileMap.random w h n shuffle = some b) :
    b.n_mines = 0 ∧
    b.tiles.countP (fun t => decide (cellState t = TileState.Mine)) = n ∧
    b.n_mines ≠ n := by
  obtain ⟨h0, hdim, hlen, hcount⟩ := random_characterized hperm hb
  refine ⟨h0, ?_, by omega⟩
  rw [← hcount]
  exact List.countP_congr fun t _ => by
      simp only [decide_eq_true_eq]
      exact cellState_eq_mine_iff

/-- C1 witness: `TileMap::random(2, 1, 1)` (identity shuffle) returns the
board `[-1, 1]` holding one mine, yet its `n_mines` is 0. -/
theorem claim_C1_witness :
    TileMap.random 2 1 1 id =
      some { n_mines := 0, dim := (2, 1), tiles := [-1, 1] } ∧
    ({ n_mines := 0, dim := (2, 1), tiles := [-1, 1] } : TileMap).n_mines = 0 ∧
    ({ n_mines := 0, dim := (2, 1), tiles := [-1, 1] } : TileMap).tiles.countP
      (fun t => decide (cellState t = TileState.Mine)) = 1 ∧
    ({ n_mines := 0, dim := (2, 1), tiles := [-1, 1] } : TileMap).n_mines ≠ 1 := by
  have hb : TileMap.random 2 1 1 id =
      some { n_mines := 0, dim := (2, 1), tiles := [-1, 1] } := by rfl
  have h := claim_C1_n_mines_bug 2 1 1 id (fun l => List.Perm.refl l)
    (by norm_num) _ hb
  exact ⟨hb, h⟩

/-- C2: every board produced by `random(width, height, n)` with
`n ≤ width * height` (and the grid within the machine range) holds exactly
`n` cells decoding to `Mine` and `width * height - n` cells decoding to
`Clear(k)` for some `k`, whatever permutation the RNG produced. -/
theorem claim_C2_mine_count (w h n : Nat) (shuffle : List Int → List Int)
    (hperm : ∀ l, (shuffle l).Perm l) (hw : 1 ≤ w) (hh : 1 ≤ h)
    (hn : n ≤ w * h) (hA : w * h < 2 ^ 31) (b : TileMap)
    (hb : TileMap.random w h n shuffle = some b) :
    b.tiles.countP (fun t => decide (cellState t = TileState.Mine)) = n ∧
    b.tiles.countP (fun t => (cellState t).isClear) = w * h - n := by
  obtain ⟨h0, hdim, hlen, hcount⟩ := random_characterized hperm hb
  have hmod : w * h % 2 ^ 32 = w * h := Nat.mod_eq_of_lt (by omega)
  have hmine : b.tiles.countP
      (fun t => decide (cellState t = TileState.Mine)) = n := by
    rw [← hcount]
    exact List.countP_congr fun t _ => by
      simp only [decide_eq_true_eq]
      exact cellState_eq_mine_iff
  refine ⟨hmine, ?_⟩
  have htot := countP_clear_add_mine b.tiles
  rw [hmine, hlen, hmod] at htot
  omega

/-- C2 witness: the theorem applied to `random(2, 2, 1)` with the identity
shuffle, which yields the board `[-1, 1, 1, 1]`: one mine, three clears. -/
theorem claim_C2_witness :
    ({ n_mines := 0, dim := (2, 2), tiles := [-1, 1, 1, 1] } : TileMap).tiles.countP
      (fun t => decide (cellState t = TileState.Mine)) = 1 ∧
    ({ n_mines := 0, dim := (2, 2), tiles := [-1, 1, 1, 1] } : TileMap).tiles.countP
      (fun t => (cellState t).isClear) = 2 * 2 - 1 :=
  claim_C2_mine_count 2 2 1 id (fun l => List.Perm.refl l) (by norm_num)
    (by norm_num) (by norm_num) (by norm_num)
    { n_mines := 0, dim := (2, 2), tiles := [-1, 1, 1, 1] } (by rfl)

theorem derived_board_adjacency (w h : Nat) (tiles0 : List Int) (b : TileMap)
    (hlen : tiles0.length = w * h)
    (hbdim : b.dim = ((w : Int), (h : Int)))
    (hbt : b.tiles = deriveFold ((coordsList w h).map fun c0 =>
      TileView.mk c0 b.n_mines ((w : Int), (h : Int))) tiles0)
    (c : Int × Int) (v : TileView) (k : Nat)
    (hv : b.get_tile c = some v)
    (hk : v.state b.tiles = TileState.Clear k) :
    k = (v.neighbors.filter fun nb => nb.is_mine b.tiles).length := by
  unfold TileMap.get_tile at hv
  by_cases hbc : bound_check c b.dim = true
  · rw [if_pos hbc] at hv
    have hveq := Option.some.inj hv
    subst hveq
    rw [hbdim, bound_check_iff] at hbc
    simp only at hbc
    have hc : 0 ≤ c.1 ∧ c.1 < (w : Int) ∧ 0 ≤ c.2 ∧ c.2 < (h : Int) :=
      ⟨hbc.1, hbc.2.2.1, hbc.2.1, hbc.2.2.2⟩
    rw [hbdim] at hk ⊢
    unfold TileView.state at hk
    have hclear : ¬ tiles0.getD
        (TileView.mk c b.n_mines ((w : Int), (h : Int))).index 0 < 0 := by
      intro hcon
      rw [hbt] at hk
      rw [← deriveFold_sign ((coordsList w h).map fun c0 =>
        TileView.mk c0 b.n_mines ((w : Int), (h : Int))) tiles0] at hcon
      unfold cellState at hk
      rw [if_pos hcon] at hk
      cases hk
    have hmem : TileView.mk c b.n_mines ((w : Int), (h : Int)) ∈
        (coordsList w h).map fun c0 =>
          TileView.mk c0 b.n_mines ((w : Int), (h : Int)) :=
      List.mem_map.mpr ⟨c, mem_coordsList.mpr hc, rfl⟩
    have hfin := deriveFold_final w h b.n_mines tiles0 hlen _ hmem hclear
    rw [hbt] at hk ⊢
    rw [hfin] at hk
    unfold cellState at hk
    rw [if_neg (by omega)] at hk
    injection hk with hke
    rw [Int.toNat_natCast] at hke
    exact hke.symm
  · rw [if_neg hbc] at hv
    cases hv

/-- C3: on every board returned by `random` (mine count within the grid
area, grid within the machine range), every cell reading `Clear(k)` has `k`
equal to the exact number of its in-bounds 8-directional neighbors reading
`Mine`; and the derivation pass is order-insensitive: folding the derivation
step over any permutation of `all_tiles()` produces the same buffer (the
clear-count writes never change any cell's mine classification). -/
theorem claim_C3_adjacency (w h n : Nat) (shuffle : List Int → List Int)
    (hperm : ∀ l, (shuffle l).Perm l) (hn : n ≤ w * h) (hA : w * h < 2 ^ 31)
    (b : TileMap) (hb : TileMap.random w h n shuffle = some b) :
    (∀ (c : Int × Int) (v : TileView) (k : Nat), b.get_tile c = some v →
      v.state b.tiles = TileState.Clear k →
      k = (v.neighbors.filter fun nb => nb.is_mine b.tiles).length) ∧
    (∀ (m : TileMap) (order : List TileView) (ts : List Int),
      m.dim = ((w : Int), (h : Int)) → order.Perm m.all_tiles →
      deriveFold order ts = deriveFold m.all_tiles ts) := by
  obtain ⟨hw, hh, hnm⟩ := random_some_bounds hb
  have hmod : w * h % 2 ^ 32 = w * h := by
    apply Nat.mod_eq_of_lt
    omega
  rw [random_eq_some w h n shuffle hw hh hnm] at hb
  have hb' := Option.some.inj hb
  constructor
  · intro c v k hv hk
    have hviews : (baseBoard w h n shuffle).all_tiles =
        (coordsList w h).map fun c0 =>
          TileView.mk c0 0 ((w : Int), (h : Int)) := by
      rw [all_tiles_eq (baseBoard w h n shuffle) rfl]
      rfl
    refine derived_board_adjacency w h (shuffledBase w h n shuffle) b ?_ ?_ ?_
      c v k hv hk
    · unfold shuffledBase
      rw [(hperm _).length_eq, mineFill_length hnm, hmod]
    · rw [← hb']
    · rw [← hb']
      show deriveFold (baseBoard w h n shuffle).all_tiles
        (shuffledBase w h n shuffle) = _
      rw [hviews]
  · intro m order ts hdm hp
    have hdist : m.all_tiles.Pairwise (fun a b => a.index ≠ b.index) := by
      rw [all_tiles_eq m hdm, hdm]
      exact boardViews_pairwise w h m.n_mines
    exact deriveFold_perm m.all_tiles order ts hp hdist

theorem map_coord_filterMap (v : TileView) (l : List (Int × Int)) :
    ((l.filterMap fun delta =>
      let coord := (v.coord.1 + delta.1, v.coord.2 + delta.2)
      if bound_check coord v.dim then some { v with coord := coord } else none).map
        TileView.coord) =
      (l.map fun delta => (v.coord.1 + delta.1, v.coord.2 + delta.2)).filter
        fun c0 => bound_check c0 v.dim := by
  induction l with
  | nil => rfl
  | cons d l ih =>
    simp only [List.filterMap_cons, List.map_cons, List.filter_cons]
    by_cases hb : bound_check (v.coord.1 + d.1, v.coord.2 + d.2) v.dim = true
    · simp [hb, ih]
    · simp only [Bool.not_eq_true] at hb
      simp [hb, ih]

theorem neighbors_coords (v : TileView) :
    v.neighbors.map TileView.coord =
      (neighborDeltas.map fun delta =>
        (v.coord.1 + delta.1, v.coord.2 + delta.2)).filter
        fun c0 => bound_check c0 v.dim :=
  map_coord_filterMap v neighborDeltas

theorem neighbors_length_eq (v : TileView) :
    v.neighbors.length = ((neighborDeltas.map fun delta =>
      (v.coord.1 + delta.1, v.coord.2 + delta.2)).filter
        fun c0 => bound_check c0 v.dim).length := by
  rw [← neighbors_coords, List.length_map]


theorem bc_true (a b w h : Int) (h1 : 0 ≤ a) (h2 : 0 ≤ b) (h3 : a < w)
    (h4 : b < h) : bound_check (a, b) (w, h) = true :=
  bound_check_iff.mpr ⟨h1, h2, h3, h4⟩

theorem bc_false (a b w h : Int) (hor : a < 0 ∨ b < 0 ∨ w ≤ a ∨ h ≤ b) :
    bound_check (a, b) (w, h) = false := by
  cases hcase : bound_check (a, b) (w, h)
  · rfl
  · exfalso
    rw [bound_check_iff] at hcase
    simp only at hcase
    omega

theorem nbrs_interior (x y w h : Int) (nm : Nat)
    (h1 : 0 < x) (h2 : x < w - 1) (h3 : 0 < y) (h4 : y < h - 1) :
    (TileView.mk (x, y) nm (w, h)).neighbors.length = 8 := by
  have e1 := bc_true (x + -1) (y + -1) w h (by omega) (by omega) (by omega) (by omega)
  have e2 := bc_true (x + 0) (y + -1) w h (by omega) (by omega) (by omega) (by omega)
  have e3 := bc_true (x + 1) (y + -1) w h (by omega) (by omega) (by omega) (by omega)
  have e4 := bc_true (x + -1) (y + 0) w h (by omega) (by omega) (by omega) (by omega)
  have e5 := bc_true (x + 1) (y + 0) w h (by omega) (by omega) (by omega) (by omega)
  have e6 := bc_true (x + -1) (y + 1) w h (by omega) (by omega) (by omega) (by omega)
  have e7 := bc_true (x + 0) (y + 1) w h (by omega) (by omega) (by omega) (by omega)
  have e8 := bc_true (x + 1) (y + 1) w h (by omega) (by omega) (by omega) (by omega)
  rw [neighbors_length_eq]
  simp only [neighborDeltas, List.map_cons, List.map_nil, List.filter_cons,
    List.filter_nil, e1, e2, e3, e4, e5, e6, e7, e8, if_true]
  rfl

theorem nbrs_corner (x y w h : Int) (nm : Nat) (hw : 2 ≤ w) (hh : 2 ≤ h)
    (hx : x = 0 ∨ x = w - 1) (hy : y = 0 ∨ y = h - 1) :
    (TileView.mk (x, y) nm (w, h)).neighbors.length = 3 := by
  rcases hx with hx | hx <;> rcases hy with hy | hy
  · have e1 := bc_false (x + -1) (y + -1) w h (by omega)
    have e2 := bc_false (x + 0) (y + -1) w h (by omega)
    have e3 := bc_false (x + 1) (y + -1) w h (by omega)
    have e4 := bc_false (x + -1) (y + 0) w h (by omega)
    have e5 := bc_true (x + 1) (y + 0) w h (by omega) (by omega) (by omega) (by omega)
    have e6 := bc_false (x + -1) (y + 1) w h (by omega)
    have e7 := bc_true (x + 0) (y + 1) w h (by omega) (by omega) (by omega) (by omega)
    have e8 := bc_true (x + 1) (y + 1) w h (by omega) (by omega) (by omega) (by omega)
    rw [neighbors_length_eq]
    simp only [neighborDeltas, List.map_cons, List.map_nil, List.filter_cons,
      List.filter_nil, e1, e2, e3, e4, e5, e6, e7, e8]
    rfl
  · have e1 := bc_false (x + -1) (y + -1) w h (by omega)
    have e2 := bc_true (x + 0) (y + -1) w h (by omega) (by omega) (by omega) (by omega)
    have e3 := bc_true (x + 1) (y + -1) w h (by omega) (by omega) (by omega) (by omega)
    have e4 := bc_false (x + -1) (y + 0) w h (by omega)
    have e5 := bc_true (x + 1) (y + 0) w h (by omega) (by omega) (by omega) (by omega)
    have e6 := bc_false (x + -1) (y + 1) w h (by omega)
    have e7 := bc_false (x + 0) (y + 1) w h (by omega)
    have e8 := bc_false (x + 1) (y + 1) w h (by omega)
    rw [neighbors_length_eq]
    simp only [neighborDeltas, List.map_cons, List.map_nil, List.filter_cons,
      List.filter_nil, e1, e2, e3, e4, e5, e6, e7, e8]
    rfl
  · have e1 := bc_false (x + -1) (y + -1) w h (by omega)
    have e2 := bc_false (x + 0) (y + -1) w h (by omega)
    have e3 := bc_false (x + 1) (y + -1) w h (by omega)
    have e4 := bc_true (x + -1) (y + 0) w h (by omega) (by omega) (by omega) (by omega)
    have e5 := bc_false (x + 1) (y + 0) w h (by omega)
    have e6 := bc_true (x + -1) (y + 1) w h (by omega) (by omega) (by omega) (by omega)
    have e7 := bc_true (x + 0) (y + 1) w h (by omega) (by omega) (by omega) (by omega)
    have e8 := bc_false (x + 1) (y + 1) w h (by omega)
    rw [neighbors_length_eq]
    simp only [neighborDeltas, List.map_cons, List.map_nil, List.filter_cons,
      List.filter_nil, e1, e2, e3, e4, e5, e6, e7, e8]
    rfl
  · have e1 := bc_true (x + -1) (y + -1) w h (by omega) (by omega) (by omega) (by omega)
    have e2 := bc_true (x + 0) (y + -1) w h (by omega) (by omega) (by omega) (by omega)
    have e3 := bc_false (x + 1) (y + -1) w h (by omega)
    have e4 := bc_true (x + -1) (y + 0) w h (by omega) (by omega) (by omega) (by omega)
    have e5 := bc_false (x + 1) (y + 0) w h (by omega)
    have e6 := bc_false (x + -1) (y + 1) w h (by omega)
    have e7 := bc_false (x + 0) (y + 1) w h (by omega)
    have e8 := bc_false (x + 1) (y + 1) w h (by omega)
    rw [neighbors_length_eq]
    simp only [neighborDeltas, List.map_cons, List.map_nil, List.filter_cons,
      List.filter_nil, e1, e2, e3, e4, e5, e6, e7, e8]
    rfl

theorem nbrs_edge (x y w h : Int) (nm : Nat)
    (hcase :
      (x = 0 ∧ 0 < y ∧ y < h - 1 ∧ 2 ≤ w) ∨
      (x = w - 1 ∧ 0 < y ∧ y < h - 1 ∧ 2 ≤ w) ∨
      (y = 0 ∧ 0 < x ∧ x < w - 1 ∧ 2 ≤ h) ∨
      (y = h - 1 ∧ 0 < x ∧ x < w - 1 ∧ 2 ≤ h)) :
    (TileView.mk (x, y) nm (w, h)).neighbors.length = 5 := by
  rcases hcase with ⟨hx, hy1, hy2, hd⟩ | ⟨hx, hy1, hy2, hd⟩ | ⟨hy, hx1, hx2, hd⟩ | ⟨hy, hx1, hx2, hd⟩
  · have e1 := bc_false (x + -1) (y + -1) w h (by omega)
    have e2 := bc_true (x + 0) (y + -1) w h (by omega) (by omega) (by omega) (by omega)
    have e3 := bc_true (x + 1) (y + -1) w h (by omega) (by omega) (by omega) (by omega)
    have e4 := bc_false (x + -1) (y + 0) w h (by omega)
    have e5 := bc_true (x + 1) (y + 0) w h (by omega) (by omega) (by omega) (by omega)
    have e6 := bc_false (x + -1) (y + 1) w h (by omega)
    have e7 := bc_true (x + 0) (y + 1) w h (by omega) (by omega) (by omega) (by omega)
    have e8 := bc_true (x + 1) (y + 1) w h (by omega) (by omega) (by omega) (by omega)
    rw [neighbors_length_eq]
    simp only [neighborDeltas, List.map_cons, List.map_nil, List.filter_cons,
      List.filter_nil, e1, e2, e3, e4, e5, e6, e7, e8]
    rfl
  · have e1 := bc_true (x + -1) (y + -1) w h (by omega) (by omega) (by omega) (by omega)
    have e2 := bc_true (x + 0) (y + -1) w h (by omega) (by omega) (by omega) (by omega)
    have e3 := bc_false (x + 1) (y + -1) w h (by omega)
    have e4 := bc_true (x + -1) (y + 0) w h (by omega) (by omega) (by omega) (by omega)
    have e5 := bc_false (x + 1) (y + 0) w h (by omega)
    have e6 := bc_true (x + -1) (y + 1) w h (by omega) (by omega) (by omega) (by omega)
    have e7 := bc_true (x + 0) (y + 1) w h (by omega) (by omega) (by omega) (by omega)
    have e8 := bc_false (x + 1) (y + 1) w h (by omega)
    rw [neighbors_length_eq]
    simp only [neighborDeltas, List.map_cons, List.map_nil, List.filter_cons,
      List.filter_nil, e1, e2, e3, e4, e5, e6, e7, e8]
    rfl
  · have e1 := bc_false (x + -1) (y + -1) w h (by omega)
    have e2 := bc_false (x + 0) (y + -1) w h (by omega)
    have e3 := bc_false (x + 1) (y + -1) w h (by omega)
    have e4 := bc_true (x + -1) (y + 0) w h (by omega) (by omega) (by omega) (by omega)
    have e5 := bc_true (x + 1) (y + 0) w h (by omega) (by omega) (by omega) (by omega)
    have e6 := bc_true (x + -1) (y + 1) w h (by omega) (by omega) (by omega) (by omega)
    have e7 := bc_true (x + 0) (y + 1) w h (by omega) (by omega) (by omega) (by omega)
    have e8 := bc_true (x + 1) (y + 1) w h (by omega) (by omega) (by omega) (by omega)
    rw [neighbors_length_eq]
    simp only [neighborDeltas, List.map_cons, List.map_nil, List.filter_cons,
      List.filter_nil, e1, e2, e3, e4, e5, e6, e7, e8]
    rfl
  · have e1 := bc_true (x + -1) (y + -1) w h (by omega) (by omega) (by omega) (by omega)
    have e2 := bc_true (x + 0) (y + -1) w h (by omega) (by omega) (by omega) (by omega)
    have e3 := bc_true (x + 1) (y + -1) w h (by omega) (by omega) (by omega) (by omega)
    have e4 := bc_true (x + -1) (y + 0) w h (by omega) (by omega) (by omega) (by omega)
    have e5 := bc_true (x + 1) (y + 0) w h (by omega) (by omega) (by omega) (by omega)
    have e6 := bc_false (x + -1) (y + 1) w h (by omega)
    have e7 := bc_false (x + 0) (y + 1) w h (by omega)
    have e8 := bc_false (x + 1) (y + 1) w h (by omega)
    rw [neighbors_length_eq]
    simp only [neighborDeltas, List.map_cons, List.map_nil, List.filter_cons,
      List.filter_nil, e1, e2, e3, e4, e5, e6, e7, e8]
    rfl

/-- C3 witness: the theorem applied at `width = height = 2`, `n_mines = 1`
with the identity shuffle, whose board is `[-1, 1, 1, 1]`. -/
theorem claim_C3_witness :
    (∀ (c : Int × Int) (v : TileView) (k : Nat),
      ({ n_mines := 0, dim := (2, 2), tiles := [-1, 1, 1, 1] } : TileMap).get_tile c =
        some v →
      v.state [-1, 1, 1, 1] = TileState.Clear k →
      k = (v.neighbors.filter fun nb => nb.is_mine [-1, 1, 1, 1]).length) ∧
    (∀ (m : TileMap) (order : List TileView) (ts : List Int),
      m.dim = ((2 : Int), (2 : Int)) → order.Perm m.all_tiles →
      deriveFold order ts = deriveFold m.all_tiles ts) :=
  claim_C3_adjacency 2 2 1 id (fun l => List.Perm.refl l) (by norm_num)
    (by norm_num) { n_mines := 0, dim := (2, 2), tiles := [-1, 1, 1, 1] }
    (by rfl)

/-- C7, counterexample: on a 1 by 1 grid the only coordinate `(0, 0)` is a
corner coordinate (`x = 0 = width - 1` and `y = 0 = height - 1`), yet
`neighbors()` yields 0 results, not the 3 the claim promises for a corner. -/
theorem claim_C7_counterexample :
    ((0 : Int) = 0 ∨ (0 : Int) = 1 - 1) ∧
    ((0 : Int) = 0 ∨ (0 : Int) = 1 - 1) ∧
    (TileView.mk (0, 0) 0 (1, 1)).neighbors.length = 0 :=
  ⟨Or.inl rfl, Or.inl rfl, rfl⟩

/-- C7 (amended): `neighbors()` yields exactly the in-bounds coordinates
among the 8 fixed offsets applied to the view's coordinate, in the listed
order with no wraparound; a strictly interior coordinate yields exactly 8
results, a corner coordinate exactly 3 provided both dimensions are at least
2, and a non-corner edge coordinate exactly 5 provided the perpendicular
dimension is at least 2 (degenerate 1-wide or 1-tall grids yield fewer; see
the counterexample). -/
theorem claim_C7_neighbors (v : TileView) (w h : Int) (hd : v.dim = (w, h)) :
    (v.neighbors.map TileView.coord =
      (neighborDeltas.map fun delta =>
        (v.coord.1 + delta.1, v.coord.2 + delta.2)).filter
        fun c0 => bound_check c0 v.dim) ∧
    ((0 < v.coord.1 ∧ v.coord.1 < w - 1 ∧ 0 < v.coord.2 ∧ v.coord.2 < h - 1) →
      v.neighbors.length = 8) ∧
    ((2 ≤ w ∧ 2 ≤ h ∧ (v.coord.1 = 0 ∨ v.coord.1 = w - 1) ∧
      (v.coord.2 = 0 ∨ v.coord.2 = h - 1)) → v.neighbors.length = 3) ∧
    (((v.coord.1 = 0 ∧ 0 < v.coord.2 ∧ v.coord.2 < h - 1 ∧ 2 ≤ w) ∨
      (v.coord.1 = w - 1 ∧ 0 < v.coord.2 ∧ v.coord.2 < h - 1 ∧ 2 ≤ w) ∨
      (v.coord.2 = 0 ∧ 0 < v.coord.1 ∧ v.coord.1 < w - 1 ∧ 2 ≤ h) ∨
      (v.coord.2 = h - 1 ∧ 0 < v.coord.1 ∧ v.coord.1 < w - 1 ∧ 2 ≤ h)) →
      v.neighbors.length = 5) := by
  obtain ⟨⟨x, y⟩, nm, dim⟩ := v
  simp only at hd
  subst hd
  refine ⟨neighbors_coords _, ?_, ?_, ?_⟩
  · rintro ⟨h1, h2, h3, h4⟩
    exact nbrs_interior x y w h nm h1 h2 h3 h4
  · rintro ⟨hw2, hh2, hx, hy⟩
    exact nbrs_corner x y w h nm hw2 hh2 hx hy
  · intro hcase
    exact nbrs_edge x y w h nm hcase

/-- C7 witness: the amended theorem applied at an interior coordinate of a
3 by 3 grid (8 neighbors), a corner of a 2 by 2 grid (3 neighbors), and a
left-edge non-corner coordinate of a 2 by 3 grid (5 neighbors). -/
theorem claim_C7_witness :
    (TileView.mk (1, 1) 0 (3, 3)).neighbors.length = 8 ∧
    (TileView.mk (0, 0) 0 (2, 2)).neighbors.length = 3 ∧
    (TileView.mk (0, 1) 0 (2, 3)).neighbors.length = 5 := by
  refine ⟨?_, ?_, ?_⟩
  · exact (claim_C7_neighbors (TileView.mk (1, 1) 0 (3, 3)) 3 3 rfl).2.1
      (by decide)
  · exact (claim_C7_neighbors (TileView.mk (0, 0) 0 (2, 2)) 2 2 rfl).2.2.1
      (by decide)
  · exact (claim_C7_neighbors (TileView.mk (0, 1) 0 (2, 3)) 2 3 rfl).2.2.2
      (Or.inl (by decide))
